import Mathlib

/-!
# Verification of the vscode-aspell concurrency core

A shallow embedding, in Lean 4, of the core of the `vscode-aspell` extension:

* `Lock` (src/lock.ts): a promise-based mutual-exclusion gate with a FIFO
  waiter queue;
* `Debouncer` (src/lock.ts, second revision): a cool-down based coalescer;
* `AwaitLine` (src/extension.ts): a line demultiplexer matching pending
  `getLine()` requesters with newline-delimited lines split from a stream;
* `spellCheckLine` (src/extension.ts): the parser for aspell error records,
  an embedding of the regular expression
  `/^[\&#] ([a-zA-Z]+) ([0-9]+) ([0-9]+): (.+)$/`;
* `checkSpelling` (src/extension.ts): the protocol client that writes a word
  batch, reads lines until the empty terminator line, and updates the
  `knownGood` / `knownBad` caches;
* `trimCache` (second revision of extension.ts): the bounded-cache eviction
  pass over the `knownGood` set and the `knownBad` map.

JavaScript strings are embedded as `String` or `List Char`; the promise-based
control flow is embedded as explicit transition systems (one step per
suspension point) with ghost logs recording call, suspension, resumption and
delivery order.
-/

namespace VscodeAspell

/-! ## Aspell error records: `spellCheckLine` (src/extension.ts) -/

/-- The `spellCheckError` record type of src/extension.ts:
`{ word: string; suggestions: string[] }`. -/
structure SpellCheckError where
  word : String
  suggestions : List String
deriving DecidableEq

/-- The character class `[a-zA-Z]` of the aspell regexp. -/
def isAsciiLetter (c : Char) : Bool :=
  ('a' ≤ c && c ≤ 'z') || ('A' ≤ c && c ≤ 'Z')

/-- The character class `[0-9]` of the aspell regexp. -/
def isAsciiDigit (c : Char) : Bool :=
  '0' ≤ c && c ≤ '9'

/-- The JavaScript regexp metacharacter `.` (without the `s` flag): any
character except the line terminators LF, CR, LINE SEPARATOR and PARAGRAPH
SEPARATOR. -/
def isRegexpDotChar (c : Char) : Bool :=
  !(c = '\n' || c = '\r' || c = Char.ofNat 0x2028 || c = Char.ofNat 0x2029)

/-- JavaScript `String.prototype.split(" ")`: cut at every single space;
adjacent separators and boundary separators produce empty fragments, and
`"".split(" ")` is `[""]`. -/
def splitOnSpace : List Char → List (List Char)
  | [] => [[]]
  | c :: cs =>
    if c = ' ' then [] :: splitOnSpace cs
    else
      match splitOnSpace cs with
      | [] => [[c]]
      | w :: ws => (c :: w) :: ws

/-- Match a non-empty maximal run of characters satisfying `p` at the head of
`l` (a greedy `(p+)` regexp group), returning the run and the rest. -/
def matchPlus (p : Char → Bool) (l : List Char) : Option (List Char × List Char) :=
  match l.takeWhile p with
  | [] => none
  | w => some (w, l.dropWhile p)

/-- The anchored regexp `/^[\&#] ([a-zA-Z]+) ([0-9]+) ([0-9]+): (.+)$/` of
src/extension.ts, returning (group 1, group 4): the misspelled word and the
suggestion text.  The literal pieces and character classes of the pattern are
pairwise exclusive, so greedy matching with no backtracking is exact. -/
def matchAspellRegexp (chunk : List Char) : Option (List Char × List Char) :=
  match chunk with
  | m :: sp :: rest =>
    if (m = '&' ∨ m = '#') ∧ sp = ' ' then
      match matchPlus isAsciiLetter rest with
      | none => none
      | some (word, r1) =>
        match r1 with
        | [] => none
        | c1 :: r2 =>
          if c1 = ' ' then
            match matchPlus isAsciiDigit r2 with
            | none => none
            | some (_, r3') =>
              match r3' with
              | [] => none
              | c2 :: r3 =>
                if c2 = ' ' then
                  match matchPlus isAsciiDigit r3 with
                  | none => none
                  | some (_, r4') =>
                    match r4' with
                    | c3 :: c4 :: r4 =>
                      if c3 = ':' ∧ c4 = ' ' ∧ r4 ≠ [] ∧ r4.all isRegexpDotChar then
                        some (word, r4)
                      else none
                    | _ => none
                else none
          else none
    else none
  | _ => none

/-- `spellCheckLine` of src/extension.ts: parse one response line into a
`SpellCheckError`, or `none` for the empty line and every line that does not
match the aspell error-record regexp. -/
def spellCheckLine (chunk : List Char) : Option SpellCheckError :=
  if chunk.length < 1 then none
  else
    match matchAspellRegexp chunk with
    | none => none
    | some (word, text) =>
      some ⟨String.mk word, (splitOnSpace text).map String.mk⟩

/-- The error-record grammar, written after the specification: a line is an
error record exactly when it is `m ⬝ ' ' ⬝ word ⬝ ' ' ⬝ count ⬝ ' ' ⬝ offset
⬝ ':' ⬝ ' ' ⬝ text` with `m` either `&` or `#`, `word` a non-empty run of
letters, `count` and `offset` non-empty runs of decimal digits, and `text` a
non-empty run of (non-line-terminator) suggestion characters. -/
def IsErrorRecord (l word text : List Char) : Prop :=
  ∃ m cnt off,
    (m = '&' ∨ m = '#')
    ∧ word ≠ [] ∧ (∀ c ∈ word, isAsciiLetter c = true)
    ∧ cnt ≠ [] ∧ (∀ c ∈ cnt, isAsciiDigit c = true)
    ∧ off ≠ [] ∧ (∀ c ∈ off, isAsciiDigit c = true)
    ∧ text ≠ [] ∧ (∀ c ∈ text, isRegexpDotChar c = true)
    ∧ l = m :: ' ' :: (word ++ ' ' :: (cnt ++ ' ' :: (off ++ ':' :: ' ' :: text)))

/-! ## Stream-to-lines splitting: the `AwaitLine.fromStream` data handler

The handler keeps a `dataBacklog` string; on each chunk it appends the chunk
and then repeatedly splits off the prefix up to the first `"\n"`, feeding each
such line.  `breakLine` embeds one `indexOf("\n")` / `substring` split;
`drainLines` embeds the `while (i != -1)` loop; `onDataChunks` embeds the
whole handler run over a sequence of `data` events. -/

/-- Split a string at its first newline: `some (line, rest)` when a `'\n'`
occurs (the newline itself belongs to neither part), `none` otherwise.  This
is the `indexOf("\n")` / `substring(0, i)` / `substring(i + 1)` step of
`AwaitLine.fromStream`. -/
def breakLine : List Char → Option (List Char × List Char)
  | [] => none
  | c :: cs =>
    if c = '\n' then some ([], cs)
    else
      match breakLine cs with
      | none => none
      | some (l, r) => some (c :: l, r)

/-- The rest returned by `breakLine` is strictly shorter than the input
(the newline is consumed), which makes the splitting loop terminate. -/
theorem breakLine_length : ∀ {s l r : List Char}, breakLine s = some (l, r) → r.length < s.length := by
  intro s
  induction s with
  | nil => intro l r h; simp [breakLine] at h
  | cons c cs ih =>
    intro l r h
    simp only [breakLine] at h
    by_cases hc : c = '\n'
    · rw [if_pos hc] at h
      simp only [Option.some.injEq, Prod.mk.injEq] at h
      obtain ⟨h1, h2⟩ := h
      subst h2
      simp
    · rw [if_neg hc] at h
      cases hb : breakLine cs with
      | none => rw [hb] at h; exact absurd h (by simp)
      | some p =>
        obtain ⟨l', r'⟩ := p
        rw [hb] at h
        simp only [Option.some.injEq, Prod.mk.injEq] at h
        obtain ⟨h1, h2⟩ := h
        subst h2
        have := ih hb
        simp only [List.length_cons]
        omega

/-- The `while (i != -1)` loop of `AwaitLine.fromStream`: split off every
complete (newline-terminated) line, returning the lines in order together
with the remaining `dataBacklog` (the bytes after the last newline). -/
def drainLines (s : List Char) : List (List Char) × List Char :=
  match h : breakLine s with
  | none => ([], s)
  | some (l, r) =>
    have : r.length < s.length := breakLine_length h
    let p := drainLines r
    (l :: p.1, p.2)
termination_by s.length

/-- One `data` event of `AwaitLine.fromStream`: append the chunk to the kept
`dataBacklog`, then drain complete lines.  State: (lines fed so far, kept
backlog). -/
def onDataEvent (st : List (List Char) × List Char) (chunk : List Char) :
    List (List Char) × List Char :=
  (st.1 ++ (drainLines (st.2 ++ chunk)).1, (drainLines (st.2 ++ chunk)).2)

/-- Feeding a whole sequence of chunks to the `fromStream` data handler,
starting from the initial empty `dataBacklog`. -/
def onDataChunks (chunks : List (List Char)) : List (List Char) × List Char :=
  chunks.foldl onDataEvent ([], [])

/-! ## The `AwaitLine` demultiplexer (src/extension.ts)

Requesters are identified by numbers; a pending requester is embedded as its
identifier sitting in the `awaiters` queue (in the source, the promise
`resolve` callback sits there). -/

/-- The mutable state of an `AwaitLine`: the queue of pending `getLine`
requesters and the backlog of split-but-undelivered lines. -/
structure AwaitLine where
  awaiters : List Nat
  backlog : List String
deriving DecidableEq

/-- `AwaitLine.feedLine`: if a requester is waiting, the oldest one is
resolved with the line (returned as `some a`); otherwise the line is pushed
onto the backlog. -/
def AwaitLine.feedLine (al : AwaitLine) (data : String) : AwaitLine × Option Nat :=
  match al.awaiters with
  | a :: rest => (⟨rest, al.backlog⟩, some a)
  | [] => (⟨al.awaiters, al.backlog ++ [data]⟩, none)

/-- `AwaitLine.getLine` called by requester `r`: if the backlog is non-empty
its oldest line is shifted off and the call resolves immediately (returned as
`some line`); otherwise `r` suspends, joining the awaiter queue. -/
def AwaitLine.getLine (al : AwaitLine) (r : Nat) : AwaitLine × Option String :=
  match al.backlog with
  | b :: rest => (⟨al.awaiters, rest⟩, some b)
  | [] => (⟨al.awaiters ++ [r], al.backlog⟩, none)

/-- An `AwaitLine` together with ghost logs: every line ever fed (in feed
order), every requester that ever called `getLine` (in call order), and every
delivery `(requester, line)` (in delivery order). -/
structure AwaitSys where
  al : AwaitLine
  fedLog : List String
  reqLog : List Nat
  deliveries : List (Nat × String)
deriving DecidableEq

/-- The two events of the demultiplexer: a line arrival (`feedLine`) and a
`getLine` call.  A delivery is logged when the operation resolves a promise
immediately. -/
inductive AwaitStep : AwaitSys → AwaitSys → Prop where
  | feed (s : AwaitSys) (l : String) :
      AwaitStep s ⟨(s.al.feedLine l).1, s.fedLog ++ [l], s.reqLog,
        s.deliveries ++ ((s.al.feedLine l).2.map (fun a => (a, l))).toList⟩
  | request (s : AwaitSys) (r : Nat) :
      AwaitStep s ⟨(s.al.getLine r).1, s.fedLog, s.reqLog ++ [r],
        s.deliveries ++ ((s.al.getLine r).2.map (fun b => (r, b))).toList⟩

/-- States of the demultiplexer reachable from the freshly constructed one. -/
inductive AwaitReachable : AwaitSys → Prop where
  | init : AwaitReachable ⟨⟨[], []⟩, [], [], []⟩
  | step {s t : AwaitSys} : AwaitReachable s → AwaitStep s t → AwaitReachable t

/-- The inductive invariant of the demultiplexer: the delivered requesters
followed by the still-pending ones are exactly the requesters in call order;
the delivered lines followed by the backlog are exactly the fed lines in feed
order; and at most one of the two queues is non-empty. -/
def AwaitInv (s : AwaitSys) : Prop :=
  s.deliveries.map Prod.fst ++ s.al.awaiters = s.reqLog
  ∧ s.deliveries.map Prod.snd ++ s.al.backlog = s.fedLog
  ∧ (s.al.awaiters = [] ∨ s.al.backlog = [])

/-! ## The `Lock` gate (src/lock.ts)

Callers are identified by numbers; a suspended caller is embedded as its
identifier in the `waiters` queue (in the source, its promise `resolve`
callback).  The transition system adds ghost state: the list of callers
currently inside the critical section, and logs of suspensions and
resumptions. -/

/-- The mutable state of a `Lock`. -/
structure Lock where
  locked : Bool
  waiters : List Nat
deriving DecidableEq

/-- `Lock.lock` called by caller `c`: if the lock is held, `c` is appended to
the waiter queue (the promise stays pending, `false`); otherwise the lock is
taken and the promise resolves immediately (`true`). -/
def Lock.lockCall (lk : Lock) (c : Nat) : Lock × Bool :=
  if lk.locked then (⟨lk.locked, lk.waiters ++ [c]⟩, false)
  else (⟨true, lk.waiters⟩, true)

/-- `Lock.unlock`: if waiters are queued, the oldest is shifted off and
resumed (via `setTimeout(cb, 0)`) while the lock stays held; otherwise the
lock becomes free. -/
def Lock.unlockCall (lk : Lock) : Lock × Option Nat :=
  match lk.waiters with
  | cb :: rest => (⟨lk.locked, rest⟩, some cb)
  | [] => (⟨false, lk.waiters⟩, none)

/-- A `Lock` together with ghost state: the callers currently inside the
critical section, every caller whose `lock()` call suspended (in call order),
and every suspended caller resumed by an `unlock()` (in resumption order). -/
structure LockSys where
  lk : Lock
  inCS : List Nat
  suspendedLog : List Nat
  resumedLog : List Nat
deriving DecidableEq

/-- The events of the gate: a `lock()` call that acquires immediately, a
`lock()` call that suspends, and an `unlock()` by the caller inside the
critical section (callers release only while holding — the usage contract of
`checkSpelling`).  A resumed waiter enters the critical section; nobody else
can, since the lock stays held. -/
inductive LockStep : LockSys → LockSys → Prop where
  | lockAcquire (s : LockSys) (c : Nat) (h : s.lk.locked = false) :
      LockStep s ⟨(s.lk.lockCall c).1, s.inCS ++ [c], s.suspendedLog, s.resumedLog⟩
  | lockSuspend (s : LockSys) (c : Nat) (h : s.lk.locked = true) :
      LockStep s ⟨(s.lk.lockCall c).1, s.inCS, s.suspendedLog ++ [c], s.resumedLog⟩
  | unlock (s : LockSys) (c : Nat) (h : s.inCS = [c]) :
      LockStep s ⟨(s.lk.unlockCall).1, (s.lk.unlockCall).2.toList,
        s.suspendedLog, s.resumedLog ++ (s.lk.unlockCall).2.toList⟩

/-- States of the gate reachable from a freshly constructed `Lock`. -/
inductive LockReachable : LockSys → Prop where
  | init : LockReachable ⟨⟨false, []⟩, [], [], []⟩
  | step {s t : LockSys} : LockReachable s → LockStep s t → LockReachable t

/-- The inductive invariant of the gate: at most one caller is inside the
critical section; the resumption log followed by the still-queued waiters is
exactly the suspension log (so waiters are resumed strictly FIFO); and a free
lock has nobody inside and nobody queued. -/
def LockInv (s : LockSys) : Prop :=
  s.inCS.length ≤ 1
  ∧ s.suspendedLog = s.resumedLog ++ s.lk.waiters
  ∧ (s.lk.locked = false → s.inCS = [] ∧ s.lk.waiters = [])

/-! ## The `Debouncer` coalescer (src/lock.ts, second revision)

The artificial `setTimeout(..., bounceTime)` delay is embedded as an explicit
timer-firing event; promises are identified by numbers.  Ghost state records
the scheduled-but-unfired timers and the log of promise resolutions. -/

/-- The mutable state of a `Debouncer`. -/
structure Debouncer where
  waiting : Bool
  bounceTime : Nat
deriving DecidableEq

/-- A `Debouncer` together with ghost state: the promises whose timeout is
scheduled but has not fired yet, the log of promise resolutions, and a
counter allocating fresh promise identities. -/
structure DebSys where
  deb : Debouncer
  pendingTimers : List Nat
  resolveLog : List Nat
  nextId : Nat
deriving DecidableEq

/-- The freshly constructed `Debouncer(time)`. -/
def DebSys.init (time : Nat) : DebSys := ⟨⟨false, time⟩, [], [], 0⟩

/-- `Debouncer.queue_or_bust`: while waiting, return the dropped sentinel
(`none`) and change nothing; while idle, enter the waiting state, schedule the
cool-down timeout and return the new promise (`some id`). -/
def DebSys.queueOrBust (s : DebSys) : DebSys × Option Nat :=
  if s.deb.waiting then (s, none)
  else (⟨⟨true, s.deb.bounceTime⟩, s.pendingTimers ++ [s.nextId],
    s.resolveLog, s.nextId + 1⟩, some s.nextId)

/-- The cool-down timeout firing: leave the waiting state and resolve the
promise.  (No-op if no timer is scheduled; that case is never stepped.) -/
def DebSys.fireTimer (s : DebSys) : DebSys :=
  match s.pendingTimers with
  | [] => s
  | p :: rest => ⟨⟨false, s.deb.bounceTime⟩, rest, s.resolveLog ++ [p], s.nextId⟩

/-- The events of the coalescer: a `queue_or_bust` call, and the elapse of a
scheduled cool-down (its `setTimeout` callback running). -/
inductive DebStep : DebSys → DebSys → Prop where
  | call (s : DebSys) : DebStep s (s.queueOrBust).1
  | fire (s : DebSys) (h : s.pendingTimers ≠ []) : DebStep s s.fireTimer

/-- States of the coalescer reachable from a freshly constructed
`Debouncer(time)`. -/
inductive DebReachable : DebSys → Prop where
  | init (time : Nat) : DebReachable (DebSys.init time)
  | step {s t : DebSys} : DebReachable s → DebStep s t → DebReachable t

/-- The inductive invariant of the coalescer: the waiting flag holds exactly
while a cool-down timeout is scheduled; at most one timeout is ever scheduled;
no promise is resolved twice; scheduled promises are unresolved; and promise
identities are allocated below the counter. -/
def DebInv (s : DebSys) : Prop :=
  (s.deb.waiting = true ↔ s.pendingTimers ≠ [])
  ∧ s.pendingTimers.length ≤ 1
  ∧ s.resolveLog.Nodup
  ∧ (∀ p ∈ s.pendingTimers, p ∉ s.resolveLog)
  ∧ (∀ p ∈ s.pendingTimers, p < s.nextId)
  ∧ (∀ p ∈ s.resolveLog, p < s.nextId)

/-! ## The classification caches and `checkSpelling` (src/extension.ts)

`knownGood` is a JavaScript `Set<string>` (insertion-ordered, duplicate-free),
embedded as a `List String` maintained by `setAdd`; `knownBad` is a
`Map<string, spellCheckError>` (insertion-ordered, `set` overwrites in place),
embedded as an association list maintained by `mapSet`. -/

/-- JavaScript `Set.add`: append the element unless already present. -/
def setAdd (s : List String) (x : String) : List String :=
  if x ∈ s then s else s ++ [x]

/-- JavaScript `Set.delete` (also `delete obj[k]` on a string-keyed object):
remove every occurrence of the element. -/
def setDelete (s : List String) (x : String) : List String :=
  s.filter (fun y => !(y == x))

/-- `arrayToSet` of src/extension.ts: deduplicate a word array into a set. -/
def arrayToSet (l : List String) : List String :=
  l.foldl setAdd []

/-- JavaScript `Map.set`: overwrite the entry in place when the key is
present, append a new entry otherwise. -/
def mapSet (m : List (String × SpellCheckError)) (k : String) (v : SpellCheckError) :
    List (String × SpellCheckError) :=
  if m.any (fun kv => kv.1 == k) then
    m.map (fun kv => if kv.1 == k then (k, v) else kv)
  else m ++ [(k, v)]

/-- JavaScript `Map.get`: the value of the first (hence, with `mapSet`
maintenance, the only) entry for the key. -/
def mapLookup (m : List (String × SpellCheckError)) (k : String) : Option SpellCheckError :=
  (m.find? (fun kv => kv.1 == k)).map (fun kv => kv.2)

/-- The last entry of `errs` whose word is `w` — the final value that a
left-to-right sequence of `knownBad` overwrites for `w` leaves in place. -/
def lastErrorFor (errs : List SpellCheckError) (w : String) : Option SpellCheckError :=
  match errs with
  | [] => none
  | e :: t =>
    match lastErrorFor t w with
    | some x => some x
    | none => if e.word = w then some e else none

/-- The pair of classification caches. -/
structure CacheState where
  knownGood : List String
  knownBad : List (String × SpellCheckError)
deriving DecidableEq

/-- One `await aspellLines.getLine()` as observed by `checkSpelling`: either
the promise resolves with a line, or it rejects (a failed stream read),
which makes the `await` throw. -/
inductive LineRead where
  | line (s : String)
  | failed
deriving DecidableEq

/-- How a `checkSpelling` call ends: normal completion with its return value,
propagation of a thrown error, or never returning (the read sequence ran out
without a terminator — in the source, awaiting a line that never arrives). -/
inductive CheckOutcome where
  | completed (ret : List SpellCheckError)
  | threw
  | blocked
deriving DecidableEq

/-- The `for (;;)` loop of `checkSpelling`: read lines until the empty
terminator line; parse each line; on an error record, delete the word from
`newGoods`, append the record to `ret` and overwrite it into `knownBad`.
Returns the outcome together with the final `newGoods` and `knownBad`. -/
def checkSpellingLoop : List LineRead → List SpellCheckError → List String →
    List (String × SpellCheckError) →
    CheckOutcome × List String × List (String × SpellCheckError)
  | [], _, goods, bad => (.blocked, goods, bad)
  | .failed :: _, _, goods, bad => (.threw, goods, bad)
  | .line l :: rest, ret, goods, bad =>
    if l = "" then (.completed ret, goods, bad)
    else
      match spellCheckLine l.toList with
      | none => checkSpellingLoop rest ret goods bad
      | some e =>
        checkSpellingLoop rest (ret ++ [e]) (setDelete goods e.word) (mapSet bad e.word e)

/-- The observable result of one `checkSpelling(words)` call: its outcome, the
cache state afterwards, whether `aspellLock.lock()` was awaited, the line
written to the subprocess stdin (if any), and how many times
`aspellLock.unlock()` ran. -/
structure CheckResult where
  outcome : CheckOutcome
  st : CacheState
  lockAcquired : Bool
  wroteToAspell : Option String
  unlockCount : Nat
deriving DecidableEq

/-- `checkSpelling(words)` of src/extension.ts, run against the sequence of
line reads `reads` and the cache state `st`.  An empty `words` short-circuits
before the gate and the write.  Otherwise the loop runs; only on normal
completion are the remaining `newGoods` folded into `knownGood` and the gate
released — a thrown read skips `aspellLock.unlock()` (there is no
`try`/`finally` in the source), and `knownBad` keeps the updates made before
the throw. -/
def checkSpelling (words : List String) (reads : List LineRead) (st : CacheState) :
    CheckResult :=
  if words.length = 0 then
    ⟨.completed [], st, false, none, 0⟩
  else
    let written := String.intercalate " " words ++ "\n"
    match checkSpellingLoop reads [] (arrayToSet words) st.knownBad with
    | (.completed ret, goods, bad) =>
      ⟨.completed ret, ⟨List.foldl setAdd st.knownGood goods, bad⟩, true, some written, 1⟩
    | (.threw, _, bad) =>
      ⟨.threw, ⟨st.knownGood, bad⟩, true, some written, 0⟩
    | (.blocked, _, bad) =>
      ⟨.blocked, ⟨st.knownGood, bad⟩, true, some written, 0⟩

/-! ## Cache trimming (second revision of extension.ts)

`trimOneCache` iterates the cache with `forEach`, collecting into `toDelete`
while a countdown `goal` exceeds `CACHE_LEN_GOAL`, then calls
`cache.delete(x)` on each collected `x`.  For the `Set<string>` cache,
`forEach` passes the element, so the first `size - CACHE_LEN_GOAL` words are
deleted.  For the `Map<string, spellCheckError>` cache, `forEach` passes the
**value** (a `spellCheckError` object) as its first argument, while
`Map.delete` compares its argument against the **keys** (strings) with
SameValueZero — a string never equals an object, so those deletes remove
nothing. -/

/-- The cache size target of `trimCache`. -/
def CACHE_LEN_GOAL : Nat := 10000

/-- A JavaScript runtime value as passed to `Map.delete` / `Set.delete`:
either a string or a `spellCheckError` object. -/
inductive JSVal where
  | str (s : String)
  | errObj (e : SpellCheckError)
deriving DecidableEq

/-- JavaScript SameValueZero on the values above.  Strings compare by
contents; a string and an object are never equal.  (Two objects compare by
identity; the model never compares two objects, and conservatively treats
distinct bindings as distinct objects.) -/
def jsSameValueZero : JSVal → JSVal → Bool
  | .str a, .str b => a == b
  | _, _ => false

/-- The `forEach` collection loop of `trimOneCache`: starting from
`goal = cache.size`, push the iterated element and decrement `goal` while
`goal > CACHE_LEN_GOAL`; once the condition fails it never holds again. -/
def collectToDelete {α : Type} : List α → Nat → List α
  | [], _ => []
  | x :: xs, goal =>
    if CACHE_LEN_GOAL < goal then x :: collectToDelete xs (goal - 1) else []

/-- `trimOneCache` applied to the `knownGood` set: `Set.forEach` passes each
element, and `Set.delete` removes it. -/
def trimSetCache (cache : List String) : List String :=
  if cache.length ≤ CACHE_LEN_GOAL then cache
  else List.foldl setDelete cache (collectToDelete cache cache.length)

/-- `Map.delete(k)`: remove the entries whose key is SameValueZero-equal to
the argument. -/
def mapDeleteJS (m : List (String × SpellCheckError)) (k : JSVal) :
    List (String × SpellCheckError) :=
  m.filter (fun kv => !(jsSameValueZero (.str kv.1) k))

/-- `trimOneCache` applied to the `knownBad` map: `Map.forEach` passes each
**value**, and `Map.delete` is called on those values. -/
def trimMapCache (cache : List (String × SpellCheckError)) :
    List (String × SpellCheckError) :=
  if cache.length ≤ CACHE_LEN_GOAL then cache
  else List.foldl mapDeleteJS cache
    ((collectToDelete (cache.map Prod.snd) cache.length).map JSVal.errObj)

/-- `trimCache` of the second revision of extension.ts. -/
def trimCache (st : CacheState) : CacheState :=
  ⟨trimSetCache st.knownGood, trimMapCache st.knownBad⟩

/-- The `.then` continuation of `triggerSpellcheck`: run `trimCache` only when
the resolved `errors` array is non-empty (`if (errors.length > 0)`); if the
`checkSpelling` promise never resolves, the continuation never runs. -/
def postCheckTrim (r : CheckResult) : CacheState :=
  match r.outcome with
  | .completed ret => if ret.length > 0 then trimCache r.st else r.st
  | _ => r.st

/-- One `triggerSpellcheck` batch as far as the caches are concerned: a
`checkSpelling` call followed by the conditional trim. -/
def triggerBatch (words : List String) (reads : List LineRead) (st : CacheState) :
    CacheState :=
  postCheckTrim (checkSpelling words reads st)

/-- `n` pairwise distinct words (of lengths `1` to `n`), for concrete
over-full cache states. -/
def mkWords (n : Nat) : List String :=
  (List.range n).map (fun i => String.mk (List.replicate (i + 1) 'a'))

/-- `n` distinct-keyed `knownBad` entries, for concrete over-full cache
states. -/
def mkBad (n : Nat) : List (String × SpellCheckError) :=
  (List.range n).map (fun i => (String.mk (List.replicate (i + 1) 'b'), ⟨"x", []⟩))

/-! ## Lemmas about `matchPlus` and `takeWhile`/`dropWhile` -/

theorem takeWhile_all {p : Char → Bool} : ∀ {l : List Char}, ∀ c ∈ l.takeWhile p, p c = true := by
  intro l
  induction l with
  | nil => intro c hc; simp [List.takeWhile] at hc
  | cons x xs ih =>
    intro c hc
    rw [List.takeWhile] at hc
    cases hx : p x with
    | false => rw [hx] at hc; simp at hc
    | true =>
      rw [hx] at hc
      rcases List.mem_cons.mp hc with h | h
      · exact h ▸ hx
      · exact ih c h

theorem takeWhile_append_not {p : Char → Bool} {w : List Char} {x : Char} (xs : List Char)
    (hw : ∀ c ∈ w, p c = true) (hx : p x = false) :
    (w ++ x :: xs).takeWhile p = w ∧ (w ++ x :: xs).dropWhile p = x :: xs := by
  induction w with
  | nil => simp [List.takeWhile, List.dropWhile, hx]
  | cons c cs ih =>
    have hc : p c = true := hw c (List.mem_cons_self c cs)
    have ih' := ih (fun d hd => hw d (List.mem_cons_of_mem c hd))
    constructor
    · show List.takeWhile p (c :: (cs ++ x :: xs)) = c :: cs
      rw [List.takeWhile_cons_of_pos hc, ih'.1]
    · show List.dropWhile p (c :: (cs ++ x :: xs)) = x :: xs
      rw [List.dropWhile_cons_of_pos hc, ih'.2]

theorem matchPlus_eq_some {p : Char → Bool} {l w r : List Char} :
    matchPlus p l = some (w, r) ↔ w = l.takeWhile p ∧ r = l.dropWhile p ∧ w ≠ [] := by
  constructor
  · intro h
    rw [matchPlus] at h
    cases ht : l.takeWhile p with
    | nil => rw [ht] at h; simp at h
    | cons a t =>
      rw [ht] at h
      simp only [Option.some.injEq, Prod.mk.injEq] at h
      obtain ⟨h1, h2⟩ := h
      subst h1
      exact ⟨rfl, h2.symm, by simp⟩
  · rintro ⟨hw, hr, hne⟩
    rw [matchPlus]
    cases ht : l.takeWhile p with
    | nil => exact absurd (hw.trans ht) hne
    | cons a t => rw [hw, hr, ht]

theorem matchPlus_append {p : Char → Bool} {w : List Char} {x : Char} (xs : List Char)
    (hw : ∀ c ∈ w, p c = true) (hne : w ≠ []) (hx : p x = false) :
    matchPlus p (w ++ x :: xs) = some (w, x :: xs) := by
  obtain ⟨h1, h2⟩ := takeWhile_append_not (p := p) xs hw hx
  exact matchPlus_eq_some.mpr ⟨h1.symm, h2.symm, hne⟩

/-! ## C7: the error-record parser -/

theorem matchAspellRegexp_eq_some {l word text : List Char} :
    matchAspellRegexp l = some (word, text) ↔ IsErrorRecord l word text := by
  constructor
  · intro h
    match l with
    | [] => simp [matchAspellRegexp] at h
    | [m] => simp [matchAspellRegexp] at h
    | m :: sp :: rest =>
      rw [matchAspellRegexp] at h
      by_cases hms : (m = '&' ∨ m = '#') ∧ sp = ' '
      case neg => rw [if_neg hms] at h; exact absurd h (by simp)
      rw [if_pos hms] at h
      obtain ⟨hm, hsp⟩ := hms
      cases h1 : matchPlus isAsciiLetter rest with
      | none => rw [h1] at h; simp at h
      | some p1 =>
        obtain ⟨w1, r1⟩ := p1
        rw [h1] at h
        simp only at h
        obtain ⟨hw1, hr1, hne1⟩ := matchPlus_eq_some.mp h1
        cases r1 with
        | nil => simp at h
        | cons c1 r2 =>
          simp only at h
          by_cases hc1 : c1 = ' '
          case neg => rw [if_neg hc1] at h; exact absurd h (by simp)
          rw [if_pos hc1] at h
          cases h2 : matchPlus isAsciiDigit r2 with
          | none => rw [h2] at h; simp at h
          | some p2 =>
            obtain ⟨w2, r3'⟩ := p2
            rw [h2] at h
            simp only at h
            obtain ⟨hw2, hr2, hne2⟩ := matchPlus_eq_some.mp h2
            cases r3' with
            | nil => simp at h
            | cons c2 r3 =>
              simp only at h
              by_cases hc2 : c2 = ' '
              case neg => rw [if_neg hc2] at h; exact absurd h (by simp)
              rw [if_pos hc2] at h
              cases h3 : matchPlus isAsciiDigit r3 with
              | none => rw [h3] at h; simp at h
              | some p3 =>
                obtain ⟨w3, r4'⟩ := p3
                rw [h3] at h
                simp only at h
                obtain ⟨hw3, hr3, hne3⟩ := matchPlus_eq_some.mp h3
                cases r4' with
                | nil => simp at h
                | cons c3 t =>
                  cases t with
                  | nil => simp at h
                  | cons c4 r4 =>
                    simp only at h
                    by_cases hfin : c3 = ':' ∧ c4 = ' ' ∧ r4 ≠ [] ∧ r4.all isRegexpDotChar
                    case neg => rw [if_neg hfin] at h; exact absurd h (by simp)
                    rw [if_pos hfin] at h
                    obtain ⟨hc3, hc4, hr4ne, hr4all⟩ := hfin
                    simp only [Option.some.injEq, Prod.mk.injEq] at h
                    obtain ⟨hword, htext⟩ := h
                    have e1 : rest = w1 ++ c1 :: r2 := by
                      rw [hw1, hr1]
                      exact (List.takeWhile_append_dropWhile (p := isAsciiLetter) (l := rest)).symm
                    have e2 : r2 = w2 ++ c2 :: r3 := by
                      rw [hw2, hr2]
                      exact (List.takeWhile_append_dropWhile (p := isAsciiDigit) (l := r2)).symm
                    have e3 : r3 = w3 ++ c3 :: c4 :: r4 := by
                      rw [hw3, hr3]
                      exact (List.takeWhile_append_dropWhile (p := isAsciiDigit) (l := r3)).symm
                    refine ⟨m, w2, w3, hm, ?_, ?_, hne2, ?_, hne3, ?_, ?_, ?_, ?_⟩
                    · rw [← hword]; exact hne1
                    · intro c hc
                      rw [← hword, hw1] at hc
                      exact takeWhile_all c hc
                    · intro c hc
                      rw [hw2] at hc
                      exact takeWhile_all c hc
                    · intro c hc
                      rw [hw3] at hc
                      exact takeWhile_all c hc
                    · rw [← htext]; exact hr4ne
                    · intro c hc
                      rw [← htext] at hc
                      exact List.all_eq_true.mp hr4all c hc
                    · rw [hsp, e1, e2, e3, hc1, hc2, hc3, hc4, hword, htext]
  · rintro ⟨m, cnt, off, hm, hwne, hwall, hcne, hcall, hone, hoall, htne, htall, hl⟩
    subst hl
    rw [matchAspellRegexp, if_pos ⟨hm, rfl⟩,
      matchPlus_append _ hwall hwne (by decide)]
    simp only
    rw [if_pos trivial, matchPlus_append _ hcall hcne (by decide)]
    simp only
    rw [if_pos trivial, matchPlus_append _ hoall hone (by decide)]
    simp only
    rw [if_pos ⟨trivial, trivial, htne, List.all_eq_true.mpr (fun c hc => htall c hc)⟩]

/-- C7: `spellCheckLine(line)` returns a `{word, suggestions}` entry exactly
when the line matches the error-record grammar (`&` or `#`, a space, a
letters-only word, a space, a decimal count, a space, a decimal offset, `:`,
a space, then non-empty suggestion text), with `word` the matched word and
`suggestions` the space-split remainder; every non-matching line, including
the empty line, yields null; and `'& teh 2 0: the, ten'` parses to
`{word: "teh", suggestions: ["the,", "ten"]}`. -/
theorem C7_spellCheckLine_grammar :
    (∀ (l : List Char) (e : SpellCheckError),
        spellCheckLine l = some e ↔
          ∃ word text, IsErrorRecord l word text ∧
            e = ⟨String.mk word, (splitOnSpace text).map String.mk⟩)
    ∧ spellCheckLine (String.toList "& teh 2 0: the, ten") =
        some ⟨"teh", ["the,", "ten"]⟩
    ∧ spellCheckLine [] = none := by
  refine ⟨?_, by decide, rfl⟩
  intro l e
  constructor
  · intro h
    rw [spellCheckLine] at h
    by_cases hl : l.length < 1
    · rw [if_pos hl] at h; exact absurd h (by simp)
    · rw [if_neg hl] at h
      cases hm : matchAspellRegexp l with
      | none => rw [hm] at h; simp at h
      | some p =>
        obtain ⟨word, text⟩ := p
        rw [hm] at h
        simp only [Option.some.injEq] at h
        exact ⟨word, text, matchAspellRegexp_eq_some.mp hm, h.symm⟩
  · rintro ⟨word, text, hrec, he⟩
    have hm := matchAspellRegexp_eq_some.mpr hrec
    have hne : ¬ l.length < 1 := by
      obtain ⟨m0, cnt, off, _, _, _, _, _, _, _, _, _, hl⟩ := hrec
      rw [hl]
      simp
    rw [spellCheckLine, if_neg hne, hm, he]

/-! ## C6: chunk-boundary independence of the stream line splitter -/

theorem breakLine_none_iff {s : List Char} : breakLine s = none ↔ '\n' ∉ s := by
  induction s with
  | nil => simp [breakLine]
  | cons c cs ih =>
    rw [breakLine]
    by_cases hc : c = '\n'
    · rw [if_pos hc]
      subst hc
      simp
    · rw [if_neg hc]
      cases hb : breakLine cs with
      | none =>
        simp only [List.mem_cons, not_or]
        have := ih.mp hb
        simp [Ne.symm hc, this]
      | some p =>
        obtain ⟨l, r⟩ := p
        constructor
        · intro h; exact absurd h (by simp)
        · intro h
          rw [List.mem_cons, not_or] at h
          exact absurd hb (by rw [ih.mpr h.2]; simp)

theorem breakLine_decomp : ∀ {s l r : List Char}, breakLine s = some (l, r) →
    s = l ++ '\n' :: r ∧ '\n' ∉ l := by
  intro s
  induction s with
  | nil => intro l r h; simp [breakLine] at h
  | cons c cs ih =>
    intro l r h
    rw [breakLine] at h
    by_cases hc : c = '\n'
    · rw [if_pos hc] at h
      simp only [Option.some.injEq, Prod.mk.injEq] at h
      obtain ⟨h1, h2⟩ := h
      subst hc; subst h2
      simp [h1.symm]
    · rw [if_neg hc] at h
      cases hb : breakLine cs with
      | none => rw [hb] at h; exact absurd h (by simp)
      | some p =>
        obtain ⟨l', r'⟩ := p
        rw [hb] at h
        simp only [Option.some.injEq, Prod.mk.injEq] at h
        obtain ⟨h1, h2⟩ := h
        obtain ⟨e1, e2⟩ := ih hb
        subst h2
        rw [← h1]
        constructor
        · rw [List.cons_append, ← e1]
        · simp only [List.mem_cons, not_or]
          exact ⟨Ne.symm hc, e2⟩

theorem breakLine_append_some : ∀ {a : List Char} (b : List Char) {l r : List Char},
    breakLine a = some (l, r) → breakLine (a ++ b) = some (l, r ++ b) := by
  intro a
  induction a with
  | nil => intro b l r h; simp [breakLine] at h
  | cons c cs ih =>
    intro b l r h
    rw [breakLine] at h
    rw [List.cons_append, breakLine]
    by_cases hc : c = '\n'
    · rw [if_pos hc] at h
      rw [if_pos hc]
      simp only [Option.some.injEq, Prod.mk.injEq] at h
      rw [← h.1, ← h.2]
    · rw [if_neg hc] at h
      rw [if_neg hc]
      cases hb : breakLine cs with
      | none => rw [hb] at h; exact absurd h (by simp)
      | some p =>
        obtain ⟨l', r'⟩ := p
        rw [hb] at h
        simp only [Option.some.injEq, Prod.mk.injEq] at h
        rw [ih b hb]
        simp only [Option.some.injEq, Prod.mk.injEq]
        exact ⟨h.1, by rw [h.2]⟩

theorem drainLines_none {s : List Char} (h : breakLine s = none) :
    drainLines s = ([], s) := by
  conv_lhs => rw [drainLines.eq_def]
  split
  · rfl
  · next l r heq => rw [h] at heq; cases heq

theorem drainLines_some {s l r : List Char} (h : breakLine s = some (l, r)) :
    drainLines s = (l :: (drainLines r).1, (drainLines r).2) := by
  conv_lhs => rw [drainLines.eq_def]
  split
  · next heq => rw [h] at heq; cases heq
  · next l' r' heq =>
    rw [h] at heq
    simp only [Option.some.injEq, Prod.mk.injEq] at heq
    obtain ⟨h1, h2⟩ := heq
    subst h1
    subst h2
    rfl

theorem drainLines_append (a b : List Char) :
    drainLines (a ++ b) =
      ((drainLines a).1 ++ (drainLines ((drainLines a).2 ++ b)).1,
       (drainLines ((drainLines a).2 ++ b)).2) := by
  cases h : breakLine a with
  | none => rw [drainLines_none h]; simp
  | some p =>
    obtain ⟨l, r⟩ := p
    have hlen : r.length < a.length := breakLine_length h
    rw [drainLines_some h, drainLines_some (breakLine_append_some b h),
      drainLines_append r b]
    simp
termination_by a.length

theorem drainLines_no_newline (s : List Char) : '\n' ∉ (drainLines s).2 := by
  cases h : breakLine s with
  | none =>
    rw [drainLines_none h]
    exact breakLine_none_iff.mp h
  | some p =>
    obtain ⟨l, r⟩ := p
    have hlen : r.length < s.length := breakLine_length h
    rw [drainLines_some h]
    exact drainLines_no_newline r
termination_by s.length

theorem drainLines_reconstruct (s : List Char) :
    ((drainLines s).1.map (fun l => l ++ ['\n'])).flatten ++ (drainLines s).2 = s := by
  cases h : breakLine s with
  | none => rw [drainLines_none h]; rfl
  | some p =>
    obtain ⟨l, r⟩ := p
    have hlen : r.length < s.length := breakLine_length h
    rw [drainLines_some h]
    have ih := drainLines_reconstruct r
    obtain ⟨e1, _⟩ := breakLine_decomp h
    rw [e1]
    simp only [List.map_cons, List.flatten_cons, List.append_assoc]
    rw [ih]
    simp
termination_by s.length

theorem onDataChunks_foldl : ∀ (chunks : List (List Char)) (acc : List (List Char))
    (rem : List Char), '\n' ∉ rem →
    List.foldl onDataEvent (acc, rem) chunks =
      (acc ++ (drainLines (rem ++ chunks.flatten)).1, (drainLines (rem ++ chunks.flatten)).2) := by
  intro chunks
  induction chunks with
  | nil =>
    intro acc rem hrem
    rw [List.foldl_nil]
    simp only [List.flatten_nil, List.append_nil]
    rw [drainLines_none (breakLine_none_iff.mpr hrem)]
    simp
  | cons c cs ih =>
    intro acc rem hrem
    rw [List.foldl_cons]
    have he : onDataEvent (acc, rem) c =
        (acc ++ (drainLines (rem ++ c)).1, (drainLines (rem ++ c)).2) := rfl
    rw [he, ih _ _ (drainLines_no_newline (rem ++ c))]
    have := drainLines_append (rem ++ c) cs.flatten
    simp only [List.flatten_cons, ← List.append_assoc]
    rw [this]
    simp

/-- C6: feeding a text stream to the `AwaitLine.fromStream` data handler in
chunks delivers exactly the same lines — the newline-terminated segments, in
order — as feeding the whole content as a single chunk, for every way of
cutting the content; the bytes after the last newline are retained (they
reconstruct the input together with the lines) and are never delivered as a
line (the kept remainder contains no newline). -/
theorem C6_chunk_boundary_independence (chunks : List (List Char)) :
    onDataChunks chunks = drainLines chunks.flatten
    ∧ onDataChunks [chunks.flatten] = drainLines chunks.flatten
    ∧ '\n' ∉ (onDataChunks chunks).2
    ∧ ((drainLines chunks.flatten).1.map (fun l => l ++ ['\n'])).flatten
        ++ (drainLines chunks.flatten).2 = chunks.flatten := by
  have key : ∀ cs : List (List Char), onDataChunks cs = drainLines cs.flatten := by
    intro cs
    rw [onDataChunks, onDataChunks_foldl cs [] [] (by simp)]
    simp
  refine ⟨key chunks, ?_, ?_, drainLines_reconstruct chunks.flatten⟩
  · rw [key [chunks.flatten]]
    simp
  · rw [key chunks]
    exact drainLines_no_newline chunks.flatten

/-! ## C5 and C10: the `AwaitLine` invariants -/

theorem awaitStep_inv {s t : AwaitSys} (hs : AwaitInv s) (st : AwaitStep s t) :
    AwaitInv t := by
  obtain ⟨h1, h2, h3⟩ := hs
  cases st with
  | feed l =>
    cases ha : s.al.awaiters with
    | nil =>
      have hf : s.al.feedLine l = (⟨s.al.awaiters, s.al.backlog ++ [l]⟩, none) := by
        rw [AwaitLine.feedLine, ha]
      refine ⟨?_, ?_, ?_⟩
      · simp only [hf]
        simpa [ha] using h1
      · simp only [hf]
        simp [← h2]
      · simp only [hf]
        left
        exact ha
    | cons a rest =>
      have hb : s.al.backlog = [] := by
        rcases h3 with h | h
        · rw [ha] at h; cases h
        · exact h
      have hf : s.al.feedLine l = (⟨rest, s.al.backlog⟩, some a) := by
        rw [AwaitLine.feedLine, ha]
      refine ⟨?_, ?_, ?_⟩
      · simp only [hf]
        rw [← h1, ha]
        simp
      · simp only [hf]
        rw [← h2, hb]
        simp
      · simp only [hf]
        right
        exact hb
  | request r =>
    cases hb : s.al.backlog with
    | nil =>
      have hg : s.al.getLine r = (⟨s.al.awaiters ++ [r], s.al.backlog⟩, none) := by
        rw [AwaitLine.getLine, hb]
      refine ⟨?_, ?_, ?_⟩
      · simp only [hg]
        rw [← h1]
        simp
      · simp only [hg]
        simpa [hb] using h2
      · simp only [hg]
        right
        exact hb
    | cons b rest =>
      have ha : s.al.awaiters = [] := by
        rcases h3 with h | h
        · exact h
        · rw [hb] at h; cases h
      have hg : s.al.getLine r = (⟨s.al.awaiters, rest⟩, some b) := by
        rw [AwaitLine.getLine, hb]
      refine ⟨?_, ?_, ?_⟩
      · simp only [hg]
        rw [← h1, ha]
        simp
      · simp only [hg]
        rw [← h2, hb]
        simp
      · simp only [hg]
        left
        exact ha

theorem zip_map_fst_snd_eq (l : List (Nat × String)) :
    (l.map Prod.fst).zip (l.map Prod.snd) = l := by
  induction l with
  | nil => rfl
  | cons x xs ih => simp [ih]

theorem awaitReachable_inv {s : AwaitSys} (h : AwaitReachable s) : AwaitInv s := by
  induction h with
  | init => exact ⟨rfl, rfl, Or.inl rfl⟩
  | step _ hstep ih => exact awaitStep_inv ih hstep

/-- C5: in every reachable state of an `AwaitLine`, the delivery log is the
position-wise pairing of the `getLine` call log with the fed-line log — the
k-th requester (whether it suspended or not) receives exactly the k-th line,
so delivered lines preserve stream order and requesters are matched strictly
FIFO; moreover a `getLine` arriving while the backlog is non-empty resolves
immediately with the oldest backlog line, without touching the awaiter
queue. -/
theorem C5_awaitline_fifo (s : AwaitSys) (h : AwaitReachable s) :
    s.deliveries =
      (s.reqLog.take s.deliveries.length).zip (s.fedLog.take s.deliveries.length)
    ∧ (∀ (r : Nat) (b : String) (rest : List String), s.al.backlog = b :: rest →
        (s.al.getLine r).2 = some b ∧ (s.al.getLine r).1 = ⟨s.al.awaiters, rest⟩) := by
  obtain ⟨h1, h2, _⟩ := awaitReachable_inv h
  constructor
  · have e1 : s.reqLog.take s.deliveries.length = s.deliveries.map Prod.fst := by
      rw [← h1, ← List.length_map s.deliveries Prod.fst, List.take_left]
    have e2 : s.fedLog.take s.deliveries.length = s.deliveries.map Prod.snd := by
      rw [← h2, ← List.length_map s.deliveries Prod.snd, List.take_left]
    rw [e1, e2, zip_map_fst_snd_eq]
  · intro r b rest hb
    rw [AwaitLine.getLine, hb]
    exact ⟨rfl, rfl⟩

/-- Witness for C5 at the concrete state reached by: feed `"a"`, request by
caller 0 (served from backlog), request by caller 1 (suspends), feed `"b"`
(resumes caller 1). -/
theorem C5_awaitline_fifo_witness :
    (⟨⟨[], []⟩, ["a", "b"], [0, 1], [(0, "a"), (1, "b")]⟩ : AwaitSys).deliveries =
      ((⟨⟨[], []⟩, ["a", "b"], [0, 1], [(0, "a"), (1, "b")]⟩ : AwaitSys).reqLog.take 2).zip
        ((⟨⟨[], []⟩, ["a", "b"], [0, 1], [(0, "a"), (1, "b")]⟩ : AwaitSys).fedLog.take 2) := by
  have hr : AwaitReachable ⟨⟨[], []⟩, ["a", "b"], [0, 1], [(0, "a"), (1, "b")]⟩ :=
    AwaitReachable.step
      (AwaitReachable.step
        (AwaitReachable.step
          (AwaitReachable.step AwaitReachable.init (AwaitStep.feed _ "a"))
          (AwaitStep.request _ 0))
        (AwaitStep.request _ 1))
      (AwaitStep.feed _ "b")
  exact (C5_awaitline_fifo _ hr).1

/-- C10: in every reachable state of an `AwaitLine`, at most one of the two
internal queues is non-empty — either the awaiter queue or the line backlog is
empty — and every `feedLine` or `getLine` step preserves this. -/
theorem C10_awaitline_queue_dichotomy (s : AwaitSys) (h : AwaitReachable s) :
    (s.al.awaiters = [] ∨ s.al.backlog = [])
    ∧ (∀ t : AwaitSys, AwaitStep s t → (t.al.awaiters = [] ∨ t.al.backlog = [])) := by
  have hinv := awaitReachable_inv h
  exact ⟨hinv.2.2, fun t hstep => (awaitStep_inv hinv hstep).2.2⟩

/-- Witness for C10 at the concrete state reached by: request by caller 2
(suspends on the empty backlog). -/
theorem C10_awaitline_queue_dichotomy_witness :
    (⟨⟨[2], []⟩, [], [2], []⟩ : AwaitSys).al.awaiters = []
    ∨ (⟨⟨[2], []⟩, [], [2], []⟩ : AwaitSys).al.backlog = [] := by
  have hr : AwaitReachable ⟨⟨[2], []⟩, [], [2], []⟩ :=
    AwaitReachable.step AwaitReachable.init (AwaitStep.request _ 2)
  exact (C10_awaitline_queue_dichotomy _ hr).1

/-! ## C1: the `Lock` gate invariants -/

theorem lockStep_inv {s t : LockSys} (hs : LockInv s) (st : LockStep s t) :
    LockInv t := by
  obtain ⟨h1, h2, h3⟩ := hs
  cases st with
  | lockAcquire c h =>
    obtain ⟨hcs, hw⟩ := h3 h
    have hl : s.lk.lockCall c = (⟨true, s.lk.waiters⟩, true) := by
      rw [Lock.lockCall, if_neg (by simp [h])]
    refine ⟨?_, ?_, ?_⟩
    · rw [hcs]; simp
    · simp only [hl]; exact h2
    · simp only [hl]
      intro hfalse
      cases hfalse
  | lockSuspend c h =>
    have hl : s.lk.lockCall c = (⟨s.lk.locked, s.lk.waiters ++ [c]⟩, false) := by
      rw [Lock.lockCall, if_pos (by simp [h])]
    refine ⟨h1, ?_, ?_⟩
    · simp only [hl]
      rw [h2]
      simp
    · simp only [hl]
      intro hf
      rw [h] at hf
      cases hf
  | unlock c h =>
    cases hw : s.lk.waiters with
    | nil =>
      have hu : s.lk.unlockCall = (⟨false, s.lk.waiters⟩, none) := by
        rw [Lock.unlockCall, hw]
      refine ⟨by simp [hu], ?_, ?_⟩
      · simp only [hu]
        rw [h2, hw]
        simp
      · simp only [hu]
        intro _
        exact ⟨rfl, hw⟩
    | cons cb rest =>
      have hu : s.lk.unlockCall = (⟨s.lk.locked, rest⟩, some cb) := by
        rw [Lock.unlockCall, hw]
      refine ⟨by simp [hu], ?_, ?_⟩
      · simp only [hu]
        rw [h2, hw]
        simp
      · simp only [hu]
        intro hf
        obtain ⟨_, hw0⟩ := h3 hf
        rw [hw] at hw0
        cases hw0

theorem lockReachable_inv {s : LockSys} (h : LockReachable s) : LockInv s := by
  induction h with
  | init => exact ⟨by simp, rfl, fun _ => ⟨rfl, rfl⟩⟩
  | step _ hstep ih => exact lockStep_inv ih hstep

/-- C1: in every reachable state of the gate, at most one caller is inside
the critical section; the resumption log followed by the queued waiters
equals the suspension log, so suspended callers are resumed in exactly the
order in which they called `lock()` (FIFO); and an `unlock()` performed when
no waiters are queued sets the lock state to free and resumes nobody. -/
theorem C1_lock_mutex_fifo (s : LockSys) (h : LockReachable s) :
    s.inCS.length ≤ 1
    ∧ s.suspendedLog = s.resumedLog ++ s.lk.waiters
    ∧ (s.lk.waiters = [] →
        (s.lk.unlockCall).1.locked = false ∧ (s.lk.unlockCall).2 = none) := by
  obtain ⟨h1, h2, _⟩ := lockReachable_inv h
  refine ⟨h1, h2, ?_⟩
  intro hw
  rw [Lock.unlockCall, hw]
  exact ⟨rfl, rfl⟩

/-- Witness for C1 at the concrete state reached by: caller 0 acquires,
caller 1 suspends, caller 0 unlocks (resuming caller 1). -/
theorem C1_lock_mutex_fifo_witness :
    (⟨⟨true, []⟩, [1], [1], [1]⟩ : LockSys).inCS.length ≤ 1
    ∧ (⟨⟨true, []⟩, [1], [1], [1]⟩ : LockSys).suspendedLog =
        (⟨⟨true, []⟩, [1], [1], [1]⟩ : LockSys).resumedLog
          ++ (⟨⟨true, []⟩, [1], [1], [1]⟩ : LockSys).lk.waiters
    ∧ ((⟨⟨true, []⟩, [1], [1], [1]⟩ : LockSys).lk.waiters = [] →
        ((⟨⟨true, []⟩, [1], [1], [1]⟩ : LockSys).lk.unlockCall).1.locked = false
        ∧ ((⟨⟨true, []⟩, [1], [1], [1]⟩ : LockSys).lk.unlockCall).2 = none) := by
  have hr : LockReachable ⟨⟨true, []⟩, [1], [1], [1]⟩ :=
    LockReachable.step
      (LockReachable.step
        (LockReachable.step LockReachable.init (LockStep.lockAcquire _ 0 rfl))
        (LockStep.lockSuspend _ 1 rfl))
      (LockStep.unlock _ 0 rfl)
  exact C1_lock_mutex_fifo _ hr

/-! ## C8: the `Debouncer` coalescer invariants -/

theorem debStep_inv {s t : DebSys} (hs : DebInv s) (st : DebStep s t) :
    DebInv t := by
  obtain ⟨h1, h2, h3, h4, h5, h6⟩ := hs
  cases st with
  | call =>
    by_cases hw : s.deb.waiting = true
    · have hq : s.queueOrBust = (s, none) := by rw [DebSys.queueOrBust, if_pos hw]
      rw [hq]
      exact ⟨h1, h2, h3, h4, h5, h6⟩
    · have hw' : s.deb.waiting = false := by simpa using hw
      have hpend : s.pendingTimers = [] := by
        by_contra hne
        exact hw (h1.mpr hne)
      have hq : s.queueOrBust =
          (⟨⟨true, s.deb.bounceTime⟩, s.pendingTimers ++ [s.nextId],
            s.resolveLog, s.nextId + 1⟩, some s.nextId) := by
        rw [DebSys.queueOrBust, if_neg (by simp [hw'])]
      rw [hq]
      show DebInv ⟨⟨true, s.deb.bounceTime⟩, s.pendingTimers ++ [s.nextId],
        s.resolveLog, s.nextId + 1⟩
      refine ⟨by simp, by simp [hpend], h3, ?_, ?_, ?_⟩
      · intro p hp
        rw [hpend] at hp
        simp only [List.nil_append, List.mem_singleton] at hp
        subst hp
        intro hmem
        exact absurd (h6 _ hmem) (by omega)
      · intro p hp
        rw [hpend] at hp
        simp only [List.nil_append, List.mem_singleton] at hp
        subst hp
        exact Nat.lt_succ_self s.nextId
      · intro p hp
        exact Nat.lt_succ_of_lt (h6 p hp)
  | fire hne =>
    cases hp : s.pendingTimers with
    | nil => exact absurd hp hne
    | cons p rest =>
      have hrest : rest = [] := by
        rw [hp] at h2
        simp at h2
        exact h2
      have hpmem : p ∈ s.pendingTimers := by rw [hp]; exact List.mem_cons_self p rest
      have hf : s.fireTimer = ⟨⟨false, s.deb.bounceTime⟩, rest, s.resolveLog ++ [p], s.nextId⟩ := by
        rw [DebSys.fireTimer, hp]
      rw [hf]
      refine ⟨by simp [hrest], by simp [hrest], ?_, ?_, ?_, ?_⟩
      · refine List.Nodup.append h3 (List.nodup_singleton p) ?_
        intro a ha hb
        simp only [List.mem_singleton] at hb
        subst hb
        exact h4 _ hpmem ha
      · intro q hq
        rw [hrest] at hq
        cases hq
      · intro q hq
        rw [hrest] at hq
        cases hq
      · intro q hq
        rcases List.mem_append.mp hq with hq | hq
        · exact h6 q hq
        · simp only [List.mem_singleton] at hq
          subst hq
          exact h5 _ hpmem

theorem debReachable_inv {s : DebSys} (h : DebReachable s) : DebInv s := by
  induction h with
  | init time =>
    exact ⟨by simp [DebSys.init], by simp [DebSys.init], List.nodup_nil,
      by simp [DebSys.init], by simp [DebSys.init], by simp [DebSys.init]⟩
  | step _ hstep ih => exact debStep_inv ih hstep

/-- C8: in every reachable state of a `Debouncer`: a `queue_or_bust` call made
while the cool-down is still pending returns the dropped sentinel (`none`) and
changes nothing; a call made while idle returns a fresh promise and enters the
waiting state; while waiting, exactly one cool-down timeout is scheduled, and
its firing returns the debouncer to idle and resolves the promise — a promise
never resolved before (and, globally, no promise is ever resolved twice) —
after which the next call succeeds again. -/
theorem C8_debouncer_coalescing (s : DebSys) (h : DebReachable s) :
    (s.deb.waiting = true → s.queueOrBust = (s, none))
    ∧ (s.deb.waiting = false →
        (s.queueOrBust).2 = some s.nextId ∧ (s.queueOrBust).1.deb.waiting = true)
    ∧ (s.deb.waiting = true →
        ∃ p, s.pendingTimers = [p]
          ∧ s.fireTimer.deb.waiting = false
          ∧ s.fireTimer.resolveLog = s.resolveLog ++ [p]
          ∧ p ∉ s.resolveLog
          ∧ (s.fireTimer.queueOrBust).2 = some s.fireTimer.nextId)
    ∧ s.pendingTimers.length ≤ 1
    ∧ s.resolveLog.Nodup := by
  obtain ⟨h1, h2, h3, h4, _, _⟩ := debReachable_inv h
  refine ⟨?_, ?_, ?_, h2, h3⟩
  · intro hw
    rw [DebSys.queueOrBust, if_pos hw]
  · intro hw
    rw [DebSys.queueOrBust, if_neg (by simp [hw])]
    exact ⟨rfl, rfl⟩
  · intro hw
    have hne := h1.mp hw
    cases hp : s.pendingTimers with
    | nil => exact absurd hp hne
    | cons p rest =>
      have hrest : rest = [] := by
        rw [hp] at h2
        simp at h2
        exact h2
      subst hrest
      have hf : s.fireTimer = ⟨⟨false, s.deb.bounceTime⟩, [], s.resolveLog ++ [p], s.nextId⟩ := by
        rw [DebSys.fireTimer, hp]
      refine ⟨p, rfl, by rw [hf], by rw [hf], h4 p (by rw [hp]; simp), ?_⟩
      rw [hf, DebSys.queueOrBust, if_neg (by simp)]

/-- Witness for C8 at the concrete state reached by one successful
`queue_or_bust` call on a fresh `Debouncer(250)`. -/
theorem C8_debouncer_coalescing_witness :
    (⟨⟨true, 250⟩, [0], [], 1⟩ : DebSys).queueOrBust = (⟨⟨true, 250⟩, [0], [], 1⟩, none) := by
  have hr : DebReachable ⟨⟨true, 250⟩, [0], [], 1⟩ :=
    DebReachable.step (DebReachable.init 250) (DebStep.call _)
  exact (C8_debouncer_coalescing _ hr).1 rfl

/-! ## Lemmas about the JavaScript set and map embeddings -/

theorem mem_setAdd {s : List String} {x w : String} :
    w ∈ setAdd s x ↔ w ∈ s ∨ w = x := by
  rw [setAdd]
  by_cases h : x ∈ s
  · rw [if_pos h]
    constructor
    · exact Or.inl
    · rintro (hw | rfl)
      · exact hw
      · exact h
  · rw [if_neg h]
    simp

theorem mem_foldl_setAdd : ∀ (l acc : List String) (w : String),
    w ∈ List.foldl setAdd acc l ↔ w ∈ acc ∨ w ∈ l := by
  intro l
  induction l with
  | nil => simp
  | cons x t ih =>
    intro acc w
    rw [List.foldl_cons, ih]
    rw [mem_setAdd]
    simp only [List.mem_cons]
    tauto

theorem mem_arrayToSet {l : List String} {w : String} : w ∈ arrayToSet l ↔ w ∈ l := by
  rw [arrayToSet, mem_foldl_setAdd]
  simp

theorem mem_setDelete {s : List String} {x w : String} :
    w ∈ setDelete s x ↔ w ∈ s ∧ w ≠ x := by
  rw [setDelete]
  rw [List.mem_filter]
  simp

theorem find_cons_pos {α : Type} (p : α → Bool) (a : α) (l : List α) (h : p a = true) :
    List.find? p (a :: l) = some a :=
  List.find?_cons_of_pos l h

theorem find_cons_neg {α : Type} (p : α → Bool) (a : α) (l : List α) (h : p a = false) :
    List.find? p (a :: l) = List.find? p l :=
  List.find?_cons_of_neg l (by simp [h])

theorem find_mapSet_aux (m : List (String × SpellCheckError)) (k : String)
    (v : SpellCheckError) :
    (m.map (fun kv => if kv.1 == k then (k, v) else kv)).find? (fun kv => kv.1 == k) =
      if m.any (fun kv => kv.1 == k) then some (k, v) else none := by
  induction m with
  | nil => simp
  | cons kv t ih =>
    by_cases hk : (kv.1 == k) = true
    · simp only [List.map_cons, if_pos hk, List.any_cons, hk, Bool.true_or, if_pos]
      rw [List.find?_cons_of_pos _ (by simp)]
    · simp only [List.map_cons, if_neg hk, List.any_cons, hk, Bool.false_or]
      rw [List.find?_cons_of_neg _ (by simp [hk]), ih]

theorem mapLookup_mapSet_self (m : List (String × SpellCheckError)) (k : String)
    (v : SpellCheckError) :
    mapLookup (mapSet m k v) k = some v := by
  rw [mapSet]
  by_cases ha : m.any (fun kv => kv.1 == k)
  · rw [if_pos ha, mapLookup, find_mapSet_aux, if_pos ha]
    rfl
  · rw [if_neg ha, mapLookup]
    have hnone : m.find? (fun kv => kv.1 == k) = none := by
      rw [List.find?_eq_none]
      intro x hx hbx
      exact ha (List.any_eq_true.mpr ⟨x, hx, hbx⟩)
    rw [List.find?_append, hnone]
    simp [List.find?_cons_of_pos]

theorem mapLookup_mapSet_ne (m : List (String × SpellCheckError)) (k : String)
    (v : SpellCheckError) (w : String) (h : w ≠ k) :
    mapLookup (mapSet m k v) w = mapLookup m w := by
  rw [mapSet]
  by_cases ha : m.any (fun kv => kv.1 == k)
  · rw [if_pos ha, mapLookup, mapLookup]
    congr 1
    clear ha
    induction m with
    | nil => rfl
    | cons kv t ih =>
      by_cases hk : (kv.1 == k) = true
      · have hkv : kv.1 = k := by simpa using hk
        have e2 : ((k, v).1 == w) = false := by simp [Ne.symm h]
        have e3 : (kv.1 == w) = false := by rw [hkv]; simpa using e2
        rw [List.map_cons, if_pos hk,
          find_cons_neg (fun kv => kv.1 == w) (k, v) _ e2,
          find_cons_neg (fun kv => kv.1 == w) kv t e3, ih]
      · by_cases hw : (kv.1 == w) = true
        · rw [List.map_cons, if_neg hk,
            find_cons_pos (fun kv => kv.1 == w) kv _ hw,
            find_cons_pos (fun kv => kv.1 == w) kv t hw]
        · have hw' : (kv.1 == w) = false := by simpa using hw
          rw [List.map_cons, if_neg hk,
            find_cons_neg (fun kv => kv.1 == w) kv _ hw',
            find_cons_neg (fun kv => kv.1 == w) kv t hw', ih]
  · rw [if_neg ha, mapLookup, mapLookup, List.find?_append]
    have hkv : ([(k, v)].find? (fun kv => kv.1 == w)) = none := by
      simp [Ne.symm h]
    rw [hkv]
    simp

theorem lastErrorFor_cons (e : SpellCheckError) (errs : List SpellCheckError)
    (w : String) :
    lastErrorFor (e :: errs) w =
      match lastErrorFor errs w with
      | some x => some x
      | none => if e.word = w then some e else none := rfl

theorem lastErrorFor_eq_none_iff {errs : List SpellCheckError} {w : String} :
    lastErrorFor errs w = none ↔ ∀ e ∈ errs, e.word ≠ w := by
  induction errs with
  | nil => simp [lastErrorFor]
  | cons e t ih =>
    rw [lastErrorFor_cons]
    cases hl : lastErrorFor t w with
    | some x =>
      simp only
      constructor
      · intro h; cases h
      · intro h
        exact absurd (ih.mpr (fun x hx => h x (List.mem_cons_of_mem e hx))) (by rw [hl]; simp)
    | none =>
      simp only
      by_cases he : e.word = w
      · rw [if_pos he]
        constructor
        · intro h; cases h
        · intro h; exact absurd he (h e (List.mem_cons_self e t))
      · rw [if_neg he]
        constructor
        · intro _ x hx
          rcases List.mem_cons.mp hx with rfl | hx
          · exact he
          · exact ih.mp hl x hx
        · intro _; rfl

/-! ## The `checkSpelling` loop invariant -/

theorem checkSpellingLoop_completed :
    ∀ (reads : List LineRead) (ret0 retF : List SpellCheckError)
      (goods0 goodsF : List String) (bad0 badF : List (String × SpellCheckError)),
      checkSpellingLoop reads ret0 goods0 bad0 = (CheckOutcome.completed retF, goodsF, badF) →
      ∃ newErrs,
        retF = ret0 ++ newErrs
        ∧ (∀ w, w ∈ goods0 → (∀ e ∈ newErrs, e.word ≠ w) → w ∈ goodsF)
        ∧ (∀ w, (∃ e ∈ newErrs, e.word = w) →
            mapLookup badF w = lastErrorFor newErrs w)
        ∧ (∀ w, (∀ e ∈ newErrs, e.word ≠ w) → mapLookup badF w = mapLookup bad0 w) := by
  intro reads
  induction reads with
  | nil =>
    intro ret0 retF goods0 goodsF bad0 badF h
    simp [checkSpellingLoop] at h
  | cons r rest ih =>
    intro ret0 retF goods0 goodsF bad0 badF h
    cases r with
    | failed => simp [checkSpellingLoop] at h
    | line l =>
      rw [checkSpellingLoop] at h
      by_cases hl : l = ""
      · rw [if_pos hl] at h
        simp only [Prod.mk.injEq, CheckOutcome.completed.injEq] at h
        obtain ⟨h1, h2, h3⟩ := h
        refine ⟨[], by simp [h1.symm], ?_, ?_, ?_⟩
        · intro w hw _
          rw [← h2]
          exact hw
        · rintro w ⟨e, he, _⟩
          cases he
        · intro w _
          rw [← h3]
      · rw [if_neg hl] at h
        cases hp : spellCheckLine l.toList with
        | none =>
          rw [hp] at h
          simp only at h
          exact ih _ _ _ _ _ _ h
        | some e =>
          rw [hp] at h
          simp only at h
          obtain ⟨newErrs, ihret, ihg, ihb1, ihb2⟩ := ih _ _ _ _ _ _ h
          refine ⟨e :: newErrs, ?_, ?_, ?_, ?_⟩
          · rw [ihret]
            simp
          · intro w hw hno
            have hnew : ∀ x ∈ newErrs, x.word ≠ w :=
              fun x hx => hno x (List.mem_cons_of_mem _ hx)
            have hew : e.word ≠ w := hno e (List.mem_cons_self e newErrs)
            exact ihg w (mem_setDelete.mpr ⟨hw, Ne.symm hew⟩) hnew
          · rintro w ⟨ex, hex, hexw⟩
            by_cases hsome : ∃ x ∈ newErrs, x.word = w
            · rw [ihb1 w hsome, lastErrorFor_cons]
              cases hlast : lastErrorFor newErrs w with
              | none =>
                obtain ⟨x, hx, hxw⟩ := hsome
                exact absurd hxw (lastErrorFor_eq_none_iff.mp hlast x hx)
              | some y => rfl
            · have hew : e.word = w := by
                rcases List.mem_cons.mp hex with rfl | hex'
                · exact hexw
                · exact absurd ⟨ex, hex', hexw⟩ hsome
              have hnone : lastErrorFor newErrs w = none :=
                lastErrorFor_eq_none_iff.mpr
                  (fun x hx hxw => hsome ⟨x, hx, hxw⟩)
              rw [ihb2 w (fun x hx hxw => hsome ⟨x, hx, hxw⟩), lastErrorFor_cons, hnone]
              simp only [if_pos hew]
              rw [← hew]
              exact mapLookup_mapSet_self bad0 e.word e
          · intro w hno
            have hew : e.word ≠ w := hno e (List.mem_cons_self e newErrs)
            rw [ihb2 w (fun x hx => hno x (List.mem_cons_of_mem _ hx))]
            exact mapLookup_mapSet_ne bad0 e.word e w (Ne.symm hew)

/-- C2: an empty `words` makes `checkSpelling` return `[]` immediately with
the caches untouched, the gate not acquired and nothing written to the
subprocess; when a non-trivial call completes (returning `ret`), every word of
`words` that was not parsed as an error from a response line is in
`knownGood`, and every word parsed as an error is in `knownBad` mapped to the
newly parsed entry — the last parsed record for that exact word, overwriting
any prior entry (last classification wins). -/
theorem C2_checkSpelling_postconditions (words : List String) (reads : List LineRead)
    (st : CacheState) (ret : List SpellCheckError)
    (hdone : (checkSpelling words reads st).outcome = CheckOutcome.completed ret) :
    (words = [] → checkSpelling words reads st =
        ⟨CheckOutcome.completed [], st, false, none, 0⟩)
    ∧ (∀ w ∈ words, (∀ e ∈ ret, e.word ≠ w) →
        w ∈ (checkSpelling words reads st).st.knownGood)
    ∧ (∀ e ∈ ret,
        mapLookup (checkSpelling words reads st).st.knownBad e.word =
          lastErrorFor ret e.word) := by
  by_cases hw : words.length = 0
  · have hwe : words = [] := List.length_eq_zero.mp hw
    have hres : checkSpelling words reads st = ⟨.completed [], st, false, none, 0⟩ := by
      rw [checkSpelling, if_pos hw]
    rw [hres] at hdone
    have hret : ret = [] := by
      simp only [CheckOutcome.completed.injEq] at hdone
      exact hdone.symm
    refine ⟨fun _ => hres, ?_, ?_⟩
    · intro w hwin
      rw [hwe] at hwin
      cases hwin
    · intro e he
      rw [hret] at he
      cases he
  · cases hloop : checkSpellingLoop reads [] (arrayToSet words) st.knownBad with
    | mk o gb =>
      obtain ⟨goods, bad⟩ := gb
      cases o with
      | completed retL =>
        have hres : checkSpelling words reads st =
            ⟨.completed retL, ⟨List.foldl setAdd st.knownGood goods, bad⟩, true,
              some (String.intercalate " " words ++ "\n"), 1⟩ := by
          rw [checkSpelling, if_neg hw, hloop]
        rw [hres] at hdone
        simp only [CheckOutcome.completed.injEq] at hdone
        subst hdone
        obtain ⟨newErrs, hret, hg, hb1, hb2⟩ :=
          checkSpellingLoop_completed reads [] retL (arrayToSet words) goods
            st.knownBad bad hloop
        rw [List.nil_append] at hret
        subst hret
        refine ⟨fun hemp => absurd (by rw [hemp]; rfl) hw, ?_, ?_⟩
        · intro w hwin hno
          rw [hres]
          exact (mem_foldl_setAdd goods st.knownGood w).mpr
            (Or.inr (hg w (mem_arrayToSet.mpr hwin) hno))
        · intro e he
          rw [hres]
          exact hb1 e.word ⟨e, he, rfl⟩
      | threw =>
        have hres : checkSpelling words reads st =
            ⟨.threw, ⟨st.knownGood, bad⟩, true,
              some (String.intercalate " " words ++ "\n"), 0⟩ := by
          rw [checkSpelling, if_neg hw, hloop]
        rw [hres] at hdone
        cases hdone
      | blocked =>
        have hres : checkSpelling words reads st =
            ⟨.blocked, ⟨st.knownGood, bad⟩, true,
              some (String.intercalate " " words ++ "\n"), 0⟩ := by
          rw [checkSpelling, if_neg hw, hloop]
        rw [hres] at hdone
        cases hdone

/-- Witness for C2: `check(["teh", "cat"])` against the response
`& teh 2 0: the, ten` then the empty terminator. -/
theorem C2_checkSpelling_postconditions_witness :
    "cat" ∈ (checkSpelling ["teh", "cat"]
        [LineRead.line "& teh 2 0: the, ten", LineRead.line ""] ⟨[], []⟩).st.knownGood := by
  have h := C2_checkSpelling_postconditions ["teh", "cat"]
    [LineRead.line "& teh 2 0: the, ten", LineRead.line ""] ⟨[], []⟩
    [⟨"teh", ["the,", "ten"]⟩] (by decide)
  exact h.2.1 "cat" (by decide) (by decide)

/-- C3 counterexample: with `words = ["a"]` and a first read that fails
(rejects), `checkSpelling` acquires the gate, exits by the throwing path, and
never calls `unlock` — refuting "releases the gate exactly once on every exit
path, including where the stream read fails". -/
theorem C3_counterexample :
    (checkSpelling ["a"] [LineRead.failed] ⟨[], []⟩).lockAcquired = true
    ∧ (checkSpelling ["a"] [LineRead.failed] ⟨[], []⟩).outcome = CheckOutcome.threw
    ∧ (checkSpelling ["a"] [LineRead.failed] ⟨[], []⟩).unlockCount = 0 := by
  decide

/-- C3 (amended): on a non-trivial call, `checkSpelling` releases the gate
exactly once on the path where the loop completes normally (the terminator
arrives with every read succeeding); on a path where a read throws, it has
acquired the gate but releases it zero times — the function has no
`try`/`finally`, so a throw between `lock()` and `unlock()` leaks the gate. -/
theorem C3_unlock_paths (words : List String) (reads : List LineRead) (st : CacheState)
    (hne : words ≠ []) :
    ((∃ ret, (checkSpelling words reads st).outcome = CheckOutcome.completed ret) →
        (checkSpelling words reads st).lockAcquired = true
        ∧ (checkSpelling words reads st).unlockCount = 1)
    ∧ ((checkSpelling words reads st).outcome = CheckOutcome.threw →
        (checkSpelling words reads st).lockAcquired = true
        ∧ (checkSpelling words reads st).unlockCount = 0) := by
  have hw : ¬ words.length = 0 := fun h => hne (List.length_eq_zero.mp h)
  cases hloop : checkSpellingLoop reads [] (arrayToSet words) st.knownBad with
  | mk o gb =>
    obtain ⟨goods, bad⟩ := gb
    cases o with
    | completed retL =>
      have hres : checkSpelling words reads st =
          ⟨.completed retL, ⟨List.foldl setAdd st.knownGood goods, bad⟩, true,
            some (String.intercalate " " words ++ "\n"), 1⟩ := by
        rw [checkSpelling, if_neg hw, hloop]
      rw [hres]
      exact ⟨fun _ => ⟨rfl, rfl⟩, fun ht => by cases ht⟩
    | threw =>
      have hres : checkSpelling words reads st =
          ⟨.threw, ⟨st.knownGood, bad⟩, true,
            some (String.intercalate " " words ++ "\n"), 0⟩ := by
        rw [checkSpelling, if_neg hw, hloop]
      rw [hres]
      refine ⟨?_, fun _ => ⟨rfl, rfl⟩⟩
      rintro ⟨ret, hc⟩
      cases hc
    | blocked =>
      have hres : checkSpelling words reads st =
          ⟨.blocked, ⟨st.knownGood, bad⟩, true,
            some (String.intercalate " " words ++ "\n"), 0⟩ := by
        rw [checkSpelling, if_neg hw, hloop]
      rw [hres]
      refine ⟨?_, ?_⟩
      · rintro ⟨ret, hc⟩
        cases hc
      · intro hc
        cases hc

/-- Witness for the amended C3 on the normal completion path. -/
theorem C3_unlock_paths_witness :
    (checkSpelling ["a"] [LineRead.line ""] ⟨[], []⟩).lockAcquired = true
    ∧ (checkSpelling ["a"] [LineRead.line ""] ⟨[], []⟩).unlockCount = 1 :=
  (C3_unlock_paths ["a"] [LineRead.line ""] ⟨[], []⟩ (by decide)).1 ⟨[], by decide⟩

/-- C4 counterexample: classify `teh` as bad, then recheck it against a clean
response; afterwards `teh` is in `knownGood` **and** still in `knownBad` —
refuting "a word is present in at most one of the caches" and "is removed
from knownBad when it is added to knownGood". -/
theorem C4_counterexample :
    "teh" ∈ (checkSpelling ["teh"] [LineRead.line ""]
        (checkSpelling ["teh"] [LineRead.line "& teh 2 0: the, ten", LineRead.line ""]
          ⟨[], []⟩).st).st.knownGood
    ∧ mapLookup (checkSpelling ["teh"] [LineRead.line ""]
        (checkSpelling ["teh"] [LineRead.line "& teh 2 0: the, ten", LineRead.line ""]
          ⟨[], []⟩).st).st.knownBad "teh" ≠ none := by
  decide

/-- C4 (amended): `checkSpelling` never removes entries from `knownBad`; a
word present in `knownBad` that a later completed call classifies as good is
added to `knownGood` while its `knownBad` entry remains, so it ends up
present in both caches. -/
theorem C4_knownBad_not_cleaned (words : List String) (reads : List LineRead)
    (st : CacheState) (ret : List SpellCheckError) (w : String)
    (hdone : (checkSpelling words reads st).outcome = CheckOutcome.completed ret)
    (hbad : mapLookup st.knownBad w ≠ none)
    (hw : w ∈ words) (hgood : ∀ e ∈ ret, e.word ≠ w) :
    w ∈ (checkSpelling words reads st).st.knownGood
    ∧ mapLookup (checkSpelling words reads st).st.knownBad w ≠ none := by
  have hwlen : ¬ words.length = 0 := by
    intro h
    rw [List.length_eq_zero.mp h] at hw
    cases hw
  cases hloop : checkSpellingLoop reads [] (arrayToSet words) st.knownBad with
  | mk o gb =>
    obtain ⟨goods, bad⟩ := gb
    cases o with
    | completed retL =>
      have hres : checkSpelling words reads st =
          ⟨.completed retL, ⟨List.foldl setAdd st.knownGood goods, bad⟩, true,
            some (String.intercalate " " words ++ "\n"), 1⟩ := by
        rw [checkSpelling, if_neg hwlen, hloop]
      rw [hres] at hdone
      simp only [CheckOutcome.completed.injEq] at hdone
      subst hdone
      obtain ⟨newErrs, hret, hg, hb1, hb2⟩ :=
        checkSpellingLoop_completed reads [] retL (arrayToSet words) goods
          st.knownBad bad hloop
      rw [List.nil_append] at hret
      subst hret
      rw [hres]
      constructor
      · exact (mem_foldl_setAdd goods st.knownGood w).mpr
          (Or.inr (hg w (mem_arrayToSet.mpr hw) hgood))
      · rw [hb2 w hgood]
        exact hbad
    | threw =>
      have hres : checkSpelling words reads st =
          ⟨.threw, ⟨st.knownGood, bad⟩, true,
            some (String.intercalate " " words ++ "\n"), 0⟩ := by
        rw [checkSpelling, if_neg hwlen, hloop]
      rw [hres] at hdone
      cases hdone
    | blocked =>
      have hres : checkSpelling words reads st =
          ⟨.blocked, ⟨st.knownGood, bad⟩, true,
            some (String.intercalate " " words ++ "\n"), 0⟩ := by
        rw [checkSpelling, if_neg hwlen, hloop]
      rw [hres] at hdone
      cases hdone

/-- Witness for the amended C4: rechecking a known-bad `teh` as good leaves it
in both caches. -/
theorem C4_knownBad_not_cleaned_witness :
    "teh" ∈ (checkSpelling ["teh"] [LineRead.line ""]
        ⟨[], [("teh", ⟨"teh", []⟩)]⟩).st.knownGood
    ∧ mapLookup (checkSpelling ["teh"] [LineRead.line ""]
        ⟨[], [("teh", ⟨"teh", []⟩)]⟩).st.knownBad "teh" ≠ none :=
  C4_knownBad_not_cleaned ["teh"] [LineRead.line ""] ⟨[], [("teh", ⟨"teh", []⟩)]⟩
    [] "teh" (by decide) (by decide) (by decide) (by decide)

/-! ## C9: cache trimming -/

theorem collectToDelete_eq_take {α : Type} :
    ∀ (l : List α) (goal : Nat), collectToDelete l goal = l.take (goal - CACHE_LEN_GOAL) := by
  intro l
  induction l with
  | nil => intro goal; rw [collectToDelete]; simp
  | cons x xs ih =>
    intro goal
    rw [collectToDelete]
    by_cases hg : CACHE_LEN_GOAL < goal
    · rw [if_pos hg, ih]
      have he : goal - CACHE_LEN_GOAL = (goal - 1 - CACHE_LEN_GOAL) + 1 := by omega
      rw [he, List.take_succ_cons]
    · rw [if_neg hg]
      have he : goal - CACHE_LEN_GOAL = 0 := by omega
      rw [he, List.take_zero]

theorem foldl_setDelete_take :
    ∀ (l : List String) (k : Nat), l.Nodup →
      List.foldl setDelete l (l.take k) = l.drop k := by
  intro l
  induction l with
  | nil => intro k _; simp
  | cons x xs ih =>
    intro k hnd
    cases k with
    | zero => simp
    | succ j =>
      rw [List.take_succ_cons, List.foldl_cons]
      have hxs : x ∉ xs := (List.nodup_cons.mp hnd).1
      have hx : setDelete (x :: xs) x = xs := by
        rw [setDelete, List.filter_cons]
        have hxx : (!(x == x)) = false := by simp
        rw [hxx]
        simp only [Bool.false_eq_true, if_false]
        apply List.filter_eq_self.mpr
        intro y hy
        have hne : y ≠ x := fun he => hxs (he ▸ hy)
        simp [hne]
      rw [hx, ih j (List.nodup_cons.mp hnd).2, List.drop_succ_cons]

theorem trimSetCache_spec (l : List String) (h : l.Nodup) :
    trimSetCache l = l.drop (l.length - CACHE_LEN_GOAL)
    ∧ (trimSetCache l).length = min l.length CACHE_LEN_GOAL := by
  rw [trimSetCache]
  by_cases hl : l.length ≤ CACHE_LEN_GOAL
  · rw [if_pos hl]
    have he : l.length - CACHE_LEN_GOAL = 0 := by omega
    rw [he, List.drop_zero]
    exact ⟨rfl, by omega⟩
  · rw [if_neg hl]
    rw [collectToDelete_eq_take, foldl_setDelete_take l _ h]
    refine ⟨rfl, ?_⟩
    rw [List.length_drop]
    omega

theorem mapDeleteJS_errObj (m : List (String × SpellCheckError)) (e : SpellCheckError) :
    mapDeleteJS m (JSVal.errObj e) = m := by
  rw [mapDeleteJS]
  exact List.filter_eq_self.mpr (fun kv _ => rfl)

theorem trimMapCache_eq (m : List (String × SpellCheckError)) : trimMapCache m = m := by
  rw [trimMapCache]
  by_cases h : m.length ≤ CACHE_LEN_GOAL
  · rw [if_pos h]
  · rw [if_neg h]
    have key : ∀ (vs : List SpellCheckError) (m0 : List (String × SpellCheckError)),
        List.foldl mapDeleteJS m0 (vs.map JSVal.errObj) = m0 := by
      intro vs
      induction vs with
      | nil => intro m0; rfl
      | cons v t ih =>
        intro m0
        rw [List.map_cons, List.foldl_cons, mapDeleteJS_errObj]
        exact ih m0
    exact key _ m

theorem postCheckTrim_no_errors (r : CheckResult)
    (h : r.outcome = CheckOutcome.completed []) : postCheckTrim r = r.st := by
  rw [postCheckTrim, h]
  simp

theorem mkWords_length (n : Nat) : (mkWords n).length = n := by
  rw [mkWords]
  simp

theorem mkWords_nodup (n : Nat) : (mkWords n).Nodup := by
  rw [mkWords]
  refine List.Nodup.map ?_ (List.nodup_range n)
  intro a b hab
  have hd : List.replicate (a + 1) 'a' = List.replicate (b + 1) 'a' :=
    congrArg String.data hab
  have hlen := congrArg List.length hd
  simp only [List.length_replicate] at hlen
  omega

theorem foldl_setAdd_of_nodup :
    ∀ (l acc : List String), (acc ++ l).Nodup → List.foldl setAdd acc l = acc ++ l := by
  intro l
  induction l with
  | nil => intro acc _; simp
  | cons x t ih =>
    intro acc h
    rw [List.foldl_cons]
    have hx : x ∉ acc := by
      intro hmem
      have := List.disjoint_of_nodup_append h
      exact this hmem (List.mem_cons_self x t)
    have hadd : setAdd acc x = acc ++ [x] := by rw [setAdd, if_neg hx]
    rw [hadd, ih (acc ++ [x]) (by simpa using h)]
    simp

theorem arrayToSet_of_nodup (l : List String) (h : l.Nodup) : arrayToSet l = l := by
  rw [arrayToSet]
  have := foldl_setAdd_of_nodup l [] (by simpa using h)
  simpa using this

set_option maxRecDepth 2000 in
/-- C9 counterexample: (i) a batch of 10001 distinct good words against a
clean (no-error) response leaves `knownGood` at 10001 entries — the trim step
is not triggered, because `triggerSpellcheck` runs `trimCache` only when the
batch reported at least one error; (ii) `trimCache` on a `knownBad` map of
10001 entries leaves all 10001 in place — the `Map.forEach`/`Map.delete` pass
deletes nothing. -/
theorem C9_counterexample :
    (triggerBatch (mkWords 10001) [LineRead.line ""] ⟨[], []⟩).knownGood.length = 10001
    ∧ (trimCache ⟨[], mkBad 10001⟩).knownBad.length = 10001 := by
  constructor
  · have hw : ¬ (mkWords 10001).length = 0 := by rw [mkWords_length]; omega
    have hres : checkSpelling (mkWords 10001) [LineRead.line ""] ⟨[], []⟩ =
        ⟨.completed [], ⟨List.foldl setAdd [] (arrayToSet (mkWords 10001)), []⟩, true,
          some (String.intercalate " " (mkWords 10001) ++ "\n"), 1⟩ := by
      rw [checkSpelling, if_neg hw]
      rfl
    rw [triggerBatch, hres, postCheckTrim_no_errors _ rfl]
    simp only
    rw [arrayToSet_of_nodup _ (mkWords_nodup 10001)]
    rw [foldl_setAdd_of_nodup _ [] (by simpa using mkWords_nodup 10001)]
    simpa using mkWords_length 10001
  · rw [trimCache]
    simp only
    rw [trimMapCache_eq, mkBad]
    simp

/-- C9 (amended): the trim step runs only after a batch whose response
reported at least one spelling error — a completed batch with no errors never
triggers it, so inserting `max_size + k` distinct good words can leave
`knownGood` above `max_size`.  When `trimCache` does run, it only removes
entries (never adds or alters them) and brings `knownGood` down to exactly
the 10000-entry goal; but its pass over `knownBad` deletes nothing (the
`Map.forEach` callback receives values, which `Map.delete` compares against
the string keys), so `knownBad` is left unchanged and may stay above
10000. -/
theorem C9_trim_behavior (st : CacheState) (hg : st.knownGood.Nodup) :
    (trimCache st).knownGood.length = min st.knownGood.length CACHE_LEN_GOAL
    ∧ (∀ w ∈ (trimCache st).knownGood, w ∈ st.knownGood)
    ∧ (trimCache st).knownBad = st.knownBad
    ∧ (∀ (words : List String) (reads : List LineRead) (st0 : CacheState),
        (checkSpelling words reads st0).outcome = CheckOutcome.completed [] →
        triggerBatch words reads st0 = (checkSpelling words reads st0).st) := by
  obtain ⟨hdrop, hlen⟩ := trimSetCache_spec st.knownGood hg
  refine ⟨hlen, ?_, ?_, ?_⟩
  · intro w hw
    show w ∈ st.knownGood
    have : w ∈ trimSetCache st.knownGood := hw
    rw [hdrop] at this
    exact List.drop_subset _ _ this
  · show trimMapCache st.knownBad = st.knownBad
    exact trimMapCache_eq st.knownBad
  · intro words reads st0 h
    rw [triggerBatch]
    exact postCheckTrim_no_errors _ h

/-- Witness for the amended C9 at a small concrete cache state. -/
theorem C9_trim_behavior_witness :
    (trimCache ⟨["a"], [("b", ⟨"b", []⟩)]⟩).knownBad = [("b", ⟨"b", []⟩)] :=
  (C9_trim_behavior ⟨["a"], [("b", ⟨"b", []⟩)]⟩ (by decide)).2.2.1

end VscodeAspell
